import Mathlib

/-!
Verification of the PumpkinBP constraint solver core against its
specification: the NoSum subset-sum test, the bin-packing propagator,
the resolution-based conflict analyser and the reified propagator.

Rust panics (index out of bounds, usize underflow) are modelled by
`Option`: a function returns `none` exactly when the Rust code would
abort, and `some` carries the value the Rust code returns.
-/

namespace PumpkinBP

/-! ## The NoSum algorithm (bin_packing.rs, lines 874-915)

The loops are written with an explicit fuel argument so that the
definitions compute by kernel reduction; fuel exhaustion yields `none`,
and the totality theorem shows the fuel provided by `nosum` is never
exhausted on the inputs the propagator produces. -/

/-- Sum of the last `k` elements of `s` (its `k` smallest, when `s` is
sorted in non-increasing order). -/
def tailSum (s : List Int) (k : Nat) : Int :=
  (s.drop (s.length - k)).sum

/-- Sum of the first `k` elements of `s` (its `k` largest, when `s` is
sorted in non-increasing order). -/
def frontSum (s : List Int) (k : Nat) : Int :=
  (s.take k).sum

/-- First while loop of `nosum`: grow `sum_c` from the tail while
`sum_c + sizes[length - k2 - 1] < lower_bound`, incrementing `k2`. -/
def nosumTail (sizes : List Int) (lower : Int) :
    Nat → Nat → Int → Option (Nat × Int)
  | 0, _, _ => none
  | fuel + 1, k2, sumC =>
    if k2 + 1 ≤ sizes.length then
      let x := sizes.getD (sizes.length - k2 - 1) 0
      if sumC + x < lower then nosumTail sizes lower fuel (k2 + 1) (sumC + x)
      else some (k2, sumC)
    else none

/-- Innermost while loop of `nosum`: while `sum_a + sum_c ≥ lower_bound`,
shift `k2` one further back, updating `sum_b` and `sum_c`. -/
def nosumInner (sizes : List Int) (lower sumA : Int) (k1 : Nat) :
    Nat → Nat → Int → Int → Option (Nat × Int × Int)
  | 0, _, _, _ => none
  | fuel + 1, k2, sumB, sumC =>
    if sumA + sumC ≥ lower then
      if 1 ≤ k2 ∧ k2 - 1 + k1 + 2 ≤ sizes.length then
        let k2' := k2 - 1
        let y := sizes.getD (sizes.length - k2' - 1) 0
        let z := sizes.getD (sizes.length - k2' - k1 - 2) 0
        nosumInner sizes lower sumA k1 fuel k2' (sumB + y - z) (sumC - y)
      else none
    else some (k2, sumB, sumC)

/-- Main while loop of `nosum`: while `sum_a < lower_bound` and
`sum_b ≤ upper_bound`, take the next item from the front; when `sum_a`
stays below `lower_bound`, rebalance the tail via the inner loop. -/
def nosumMain (sizes : List Int) (lower upper : Int) :
    Nat → Nat → Int → Nat → Int → Int → Option (Nat × Int × Nat × Int × Int)
  | 0, _, _, _, _, _ => none
  | fuel + 1, k1, sumA, k2, sumB, sumC =>
    if sumA < lower ∧ sumB ≤ upper then
      if k1 + 1 ≤ sizes.length then
        let sumA' := sumA + sizes.getD k1 0
        if sumA' < lower then
          if 1 ≤ k2 ∧ k2 ≤ sizes.length then
            let k2' := k2 - 1
            let y := sizes.getD (sizes.length - k2' - 1) 0
            match nosumInner sizes lower sumA' (k1 + 1)
                (sizes.length + 1) k2' (sumB + y) (sumC - y) with
            | some (k2'', sumB'', sumC'') =>
                nosumMain sizes lower upper fuel (k1 + 1) sumA' k2'' sumB'' sumC''
            | none => none
          else none
        else nosumMain sizes lower upper fuel (k1 + 1) sumA' k2 sumB sumC
      else none
    else some (k1, sumA, k2, sumB, sumC)

/-- Shallow embedding of `nosum` (bin_packing.rs, lines 874-915): given
item sizes in non-increasing order and two bounds, decide whether the
pair of straddling subset sums proves that no subset sum can lie in
`[lower_bound, upper_bound]`.  Returns `(pruned, sum_a + sum_c, sum_b)`;
`none` models a Rust panic (index out of range or usize underflow). -/
def nosum (sizes : List Int) (lower_bound upper_bound : Int) :
    Option (Bool × Int × Int) :=
  if lower_bound ≤ 0 ∨ upper_bound ≥ sizes.sum then some (false, 0, 0)
  else
    match nosumTail sizes lower_bound (sizes.length + 1) 0 0 with
    | none => none
    | some (k2, sumC) =>
      if k2 + 1 ≤ sizes.length then
        match nosumMain sizes lower_bound upper_bound
            (sizes.length + 1) 0 0 k2 (sizes.getD (sizes.length - k2 - 1) 0) sumC with
        | none => none
        | some (_, sumA, _, sumBf, sumCf) =>
            some (decide (sumA < lower_bound), sumA + sumCf, sumBf)
      else none

/-- There is a subset of `s` (as a multiset, i.e. a sublist) whose sum
lies in `[a, b]`. -/
def hasSubsetSumIn (s : List Int) (a b : Int) : Prop :=
  ∃ t : List Int, t.Sublist s ∧ a ≤ t.sum ∧ t.sum ≤ b

/-! ### Arithmetic of front and tail sums -/

lemma tailSum_zero (s : List Int) : tailSum s 0 = 0 := by
  simp [tailSum]

lemma frontSum_zero (s : List Int) : frontSum s 0 = 0 := by
  simp [frontSum]

lemma tailSum_of_length_le (s : List Int) (k : Nat) (h : s.length ≤ k) :
    tailSum s k = s.sum := by
  simp [tailSum, Nat.sub_eq_zero_of_le h]

lemma frontSum_of_length_le (s : List Int) (k : Nat) (h : s.length ≤ k) :
    frontSum s k = s.sum := by
  simp [frontSum, List.take_of_length_le h]

lemma take_sum_add_drop_sum (s : List Int) (n : Nat) :
    (s.take n).sum + (s.drop n).sum = s.sum := by
  rw [← List.sum_append, List.take_append_drop]

lemma tailSum_succ (s : List Int) (k : Nat) (h : k + 1 ≤ s.length) :
    tailSum s (k + 1) = s.get ⟨s.length - k - 1, by omega⟩ + tailSum s k := by
  unfold tailSum
  have h1 : s.length - (k + 1) < s.length := by omega
  rw [List.drop_eq_getElem_cons h1, List.sum_cons]
  have h2 : s.length - (k + 1) + 1 = s.length - k := by omega
  have h3 : s.length - (k + 1) = s.length - k - 1 := by omega
  simp only [h2, h3, List.get_eq_getElem]
  have h4 : s.length - k - 1 + 1 = s.length - k := by omega
  rw [h4]

lemma frontSum_succ (s : List Int) (k : Nat) (h : k < s.length) :
    frontSum s (k + 1) = frontSum s k + s.get ⟨k, h⟩ := by
  unfold frontSum
  rw [List.take_succ, List.sum_append]
  have : s[k]? = some s[k] := List.getElem?_eq_getElem h
  simp [this]

lemma tailSum_nonneg (s : List Int) (hn : ∀ x ∈ s, 0 ≤ x) (k : Nat) :
    0 ≤ tailSum s k :=
  List.sum_nonneg (fun x hx => hn x (List.mem_of_mem_drop hx))

lemma frontSum_nonneg (s : List Int) (hn : ∀ x ∈ s, 0 ≤ x) (k : Nat) :
    0 ≤ frontSum s k :=
  List.sum_nonneg (fun x hx => hn x (List.mem_of_mem_take hx))

lemma tailSum_mono (s : List Int) (hn : ∀ x ∈ s, 0 ≤ x) {k m : Nat} (h : k ≤ m) :
    tailSum s k ≤ tailSum s m := by
  unfold tailSum
  have hsub : (s.drop (s.length - k)).Sublist (s.drop (s.length - m)) := by
    have : s.drop (s.length - k) = (s.drop (s.length - m)).drop ((s.length - k) - (s.length - m)) := by
      rw [List.drop_drop]
      congr 1
      omega
    rw [this]
    exact List.drop_sublist _ _
  exact List.Sublist.sum_le_sum hsub
    (fun x hx => hn x (List.mem_of_mem_drop hx))

lemma frontSum_mono (s : List Int) (hn : ∀ x ∈ s, 0 ≤ x) {k m : Nat} (h : k ≤ m) :
    frontSum s k ≤ frontSum s m := by
  unfold frontSum
  have hsub : (s.take k).Sublist (s.take m) := by
    have : s.take k = (s.take m).take k := by
      rw [List.take_take, Nat.min_eq_left h]
    rw [this]
    exact List.take_sublist _ _
  exact List.Sublist.sum_le_sum hsub
    (fun x hx => hn x (List.mem_of_mem_take hx))

lemma getD_eq_tailSum (s : List Int) (k : Nat) (h : k + 1 ≤ s.length) :
    s.getD (s.length - k - 1) 0 = tailSum s (k + 1) - tailSum s k := by
  rw [List.getD_eq_getElem _ _ (by omega), tailSum_succ s k h, List.get_eq_getElem]
  ring

lemma getD_eq_frontSum (s : List Int) (k : Nat) (h : k < s.length) :
    s.getD k 0 = frontSum s (k + 1) - frontSum s k := by
  rw [List.getD_eq_getElem _ _ h, frontSum_succ s k h, List.get_eq_getElem]
  ring

/-- In a non-increasing list, later elements are no greater. -/
lemma sorted_getD_le (s : List Int) (hs : s.Sorted (· ≥ ·)) (i j : Nat)
    (hij : i ≤ j) (hj : j < s.length) : s.getD j 0 ≤ s.getD i 0 := by
  rw [List.getD_eq_getElem _ _ hj, List.getD_eq_getElem _ _ (by omega)]
  rcases Nat.lt_or_ge i j with h | h
  · exact List.Sorted.rel_get_of_lt hs h
  · have : i = j := by omega
    subst this
    exact le_refl _

/-! ### Extremal subset sums of a sorted list

For a non-increasing list of non-negative integers, among sublists of a
given length the first elements give the largest sum and the last
elements give the smallest. -/

lemma take_sum_le_cons (x : Int) (l : List Int)
    (hs : (x :: l).Sorted (· ≥ ·)) (hn : ∀ y ∈ x :: l, 0 ≤ y) (n : Nat) :
    (l.take n).sum ≤ ((x :: l).take n).sum := by
  cases n with
  | zero => simp
  | succ m =>
    rw [List.take_succ, List.sum_append]
    simp only [List.take_succ_cons, List.sum_cons]
    have hx : ∀ y ∈ l, y ≤ x := List.rel_of_sorted_cons hs
    have hmono : (l.take m).sum ≤ (l.take m).sum := le_refl _
    have : (l[m]?.toList).sum ≤ x := by
      cases hm : l[m]? with
      | none => simpa using hn x (by simp)
      | some v =>
        have hv : v ∈ l := by
          have := List.getElem?_eq_some_iff.mp hm
          obtain ⟨hlt, hve⟩ := this
          exact hve ▸ List.getElem_mem hlt
        simpa using hx v hv
    omega

/-- A sublist of a non-increasing non-negative list is dominated by the
prefix of the same length. -/
lemma sublist_sum_le_take {t l : List Int} (h : t.Sublist l)
    (hs : l.Sorted (· ≥ ·)) (hn : ∀ y ∈ l, 0 ≤ y) :
    t.sum ≤ (l.take t.length).sum := by
  induction h with
  | slnil => simp
  | @cons t l' x h ih =>
    have hs' : l'.Sorted (· ≥ ·) := List.sorted_cons.mp hs |>.2
    have hn' : ∀ y ∈ l', 0 ≤ y := fun y hy => hn y (List.mem_cons_of_mem _ hy)
    exact le_trans (ih hs' hn') (take_sum_le_cons x l' hs hn t.length)
  | @cons₂ t l' x h ih =>
    have hs' : l'.Sorted (· ≥ ·) := List.sorted_cons.mp hs |>.2
    have hn' : ∀ y ∈ l', 0 ≤ y := fun y hy => hn y (List.mem_cons_of_mem _ hy)
    simp only [List.length_cons, List.take_cons, List.sum_cons]
    exact add_le_add_left (ih hs' hn') x

/-- A sublist with at least `m` elements of a non-increasing non-negative
list dominates the final `m` elements of that list. -/
lemma drop_sum_le_sublist {t l : List Int} (h : t.Sublist l)
    (hs : l.Sorted (· ≥ ·)) (hn : ∀ y ∈ l, 0 ≤ y) :
    ∀ m, m ≤ t.length → (l.drop (l.length - m)).sum ≤ t.sum := by
  induction h with
  | slnil =>
    intro m hm
    have : m = 0 := by simpa using hm
    subst this
    simp
  | @cons t l' x h ih =>
    intro m hm
    have hs' : l'.Sorted (· ≥ ·) := List.sorted_cons.mp hs |>.2
    have hn' : ∀ y ∈ l', 0 ≤ y := fun y hy => hn y (List.mem_cons_of_mem _ hy)
    have hml : m ≤ l'.length := le_trans hm h.length_le
    have : (x :: l').drop ((x :: l').length - m) = l'.drop (l'.length - m) := by
      have : (x :: l').length - m = (l'.length - m) + 1 := by
        simp only [List.length_cons]; omega
      rw [this, List.drop_succ_cons]
    rw [this]
    exact ih hs' hn' m hm
  | @cons₂ t l' x h ih =>
    intro m hm
    have hs' : l'.Sorted (· ≥ ·) := List.sorted_cons.mp hs |>.2
    have hn' : ∀ y ∈ l', 0 ≤ y := fun y hy => hn y (List.mem_cons_of_mem _ hy)
    have hxn : 0 ≤ x := hn x (by simp)
    rcases Nat.eq_zero_or_pos m with hm0 | hmpos
    · subst hm0
      simp only [Nat.sub_zero, List.drop_length, List.sum_nil, List.sum_cons]
      have h1 : 0 ≤ t.sum :=
        List.sum_nonneg (fun y hy => hn' y (h.subset hy))
      omega
    · rcases Nat.lt_or_ge m (t.length + 1) with hmlt | hmge
      · -- m ≤ t.length, the head x is not needed
        have hmt : m ≤ t.length := by omega
        have hml : m ≤ l'.length := le_trans hmt h.length_le
        have hdrop : (x :: l').drop ((x :: l').length - m) = l'.drop (l'.length - m) := by
          have : (x :: l').length - m = (l'.length - m) + 1 := by
            simp only [List.length_cons]; omega
          rw [this, List.drop_succ_cons]
        rw [hdrop, List.sum_cons]
        have := ih hs' hn' m hmt
        omega
      · -- m = t.length + 1
        have hmeq : m = t.length + 1 := by
          simp only [List.length_cons] at hm; omega
        rcases Nat.lt_or_ge t.length l'.length with hlt | hge
        · -- the last m of x :: l' start inside l'
          have hml : m ≤ l'.length := by omega
          have hdrop : (x :: l').drop ((x :: l').length - m) = l'.drop (l'.length - m) := by
            have : (x :: l').length - m = (l'.length - m) + 1 := by
              simp only [List.length_cons]; omega
            rw [this, List.drop_succ_cons]
          rw [hdrop]
          have hidx : l'.length - m < l'.length := by omega
          rw [List.drop_eq_getElem_cons hidx, List.sum_cons, List.sum_cons]
          have hhead : l'[l'.length - m] ≤ x :=
            List.rel_of_sorted_cons hs _ (List.getElem_mem hidx)
          have htail : (l'.drop (l'.length - m + 1)).sum ≤ t.sum := by
            have : l'.length - m + 1 = l'.length - t.length := by omega
            rw [this]
            exact ih hs' hn' t.length (le_refl _)
          omega
        · -- t and l' have equal length, hence are equal
          have hlen : t.length = l'.length := le_antisymm h.length_le hge
          have hteq : t = l' := h.eq_of_length hlen
          subst hteq
          have : (x :: t).length - m = 0 := by
            simp only [List.length_cons]; omega
          rw [this]
          simp

/-- Core counting argument for NoSum soundness: if the `k1` largest
items together with the whole `k2`-item tail sum below `a`, while the
run of `k1 + 1` items ending just before the tail exceeds `b`, then no
sublist of `s` has a sum in `[a, b]`. -/
lemma no_sublist_sum_in_interval (s : List Int) (a b : Int)
    (hs : s.Sorted (· ≥ ·)) (hn : ∀ x ∈ s, 0 ≤ x) (k1 k2 : Nat)
    (hk : k1 + k2 + 1 ≤ s.length)
    (hlow : frontSum s k1 + tailSum s k2 < a)
    (hhigh : b < tailSum s (k2 + k1 + 1) - tailSum s k2) :
    ∀ t : List Int, t.Sublist s → t.sum < a ∨ b < t.sum := by
  intro t ht
  have hsplit : s = s.take (s.length - k2) ++ s.drop (s.length - k2) :=
    (List.take_append_drop _ _).symm
  rw [hsplit] at ht
  obtain ⟨t1, t2, hteq, ht1, ht2⟩ := List.sublist_append_iff.mp ht
  have hheadlen : (s.take (s.length - k2)).length = s.length - k2 := by
    rw [List.length_take]; omega
  have hheads : (s.take (s.length - k2)).Sorted (· ≥ ·) :=
    List.Pairwise.sublist (List.take_sublist _ _) hs
  have hheadn : ∀ x ∈ s.take (s.length - k2), 0 ≤ x :=
    fun x hx => hn x (List.mem_of_mem_take hx)
  have htailn : ∀ x ∈ s.drop (s.length - k2), 0 ≤ x :=
    fun x hx => hn x (List.mem_of_mem_drop hx)
  subst hteq
  rw [List.sum_append]
  rcases Nat.lt_or_ge t1.length (k1 + 1) with hlen | hlen
  · -- too few elements outside the tail: the sum stays below `a`
    left
    have h1 : t1.sum ≤ ((s.take (s.length - k2)).take t1.length).sum :=
      sublist_sum_le_take ht1 hheads hheadn
    have h2 : ((s.take (s.length - k2)).take t1.length).sum ≤
        ((s.take (s.length - k2)).take k1).sum :=
      frontSum_mono _ hheadn (by omega)
    have h3 : (s.take (s.length - k2)).take k1 = s.take k1 := by
      rw [List.take_take, Nat.min_eq_left (by omega)]
    have h4 : t2.sum ≤ (s.drop (s.length - k2)).sum :=
      List.Sublist.sum_le_sum ht2 htailn
    have h5 : (s.drop (s.length - k2)).sum = tailSum s k2 := rfl
    have h6 : ((s.take (s.length - k2)).take k1).sum = frontSum s k1 := by
      rw [h3]; rfl
    omega
  · -- at least `k1 + 1` elements outside the tail: the sum exceeds `b`
    right
    have h1 : ((s.take (s.length - k2)).drop
        ((s.take (s.length - k2)).length - (k1 + 1))).sum ≤ t1.sum :=
      drop_sum_le_sublist ht1 hheads hheadn (k1 + 1) hlen
    have h2 : ((s.take (s.length - k2)).drop
        ((s.take (s.length - k2)).length - (k1 + 1))).sum =
        tailSum s (k2 + k1 + 1) - tailSum s k2 := by
      rw [hheadlen, List.drop_take]
      have e1 : s.length - k2 - (s.length - k2 - (k1 + 1)) = k1 + 1 := by omega
      have e4 : s.length - k2 - (k1 + 1) = s.length - (k2 + k1 + 1) := by omega
      rw [e1, e4]
      have e2 := take_sum_add_drop_sum (s.drop (s.length - (k2 + k1 + 1))) (k1 + 1)
      have e3 : (s.drop (s.length - (k2 + k1 + 1))).drop (k1 + 1) =
          s.drop (s.length - k2) := by
        rw [List.drop_drop]
        congr 1
        omega
      rw [e3] at e2
      unfold tailSum
      omega
    have h3 : 0 ≤ t2.sum :=
      List.sum_nonneg (fun x hx => htailn x (ht2.subset hx))
    omega

/-! ### Loop invariants of `nosum` -/

/-- Postconditions of the first `nosum` loop: on success the returned
`k2` indexes a maximal tail whose sum stays below `lower`. -/
lemma nosumTail_spec (s : List Int) (lower : Int) :
    ∀ fuel k2 sumC, sumC = tailSum s k2 → tailSum s k2 < lower →
    ∀ k2' sumC', nosumTail s lower fuel k2 sumC = some (k2', sumC') →
    sumC' = tailSum s k2' ∧ tailSum s k2' < lower ∧ k2' + 1 ≤ s.length ∧
      lower ≤ tailSum s (k2' + 1) := by
  intro fuel
  induction fuel with
  | zero =>
    intro k2 sumC _ _ k2' sumC' h
    simp [nosumTail] at h
  | succ fuel ih =>
    intro k2 sumC hC hlt k2' sumC' h
    simp only [nosumTail] at h
    by_cases hg : k2 + 1 ≤ s.length
    · rw [if_pos hg] at h
      have hx : s.getD (s.length - k2 - 1) 0 =
          tailSum s (k2 + 1) - tailSum s k2 := getD_eq_tailSum s k2 hg
      by_cases hc : sumC + s.getD (s.length - k2 - 1) 0 < lower
      · rw [if_pos hc] at h
        exact ih (k2 + 1) _ (by omega) (by omega) k2' sumC' h
      · rw [if_neg hc] at h
        simp only [Option.some.injEq, Prod.mk.injEq] at h
        obtain ⟨rfl, rfl⟩ := h
        exact ⟨hC, hlt, hg, by omega⟩
    · rw [if_neg hg] at h
      cases h

/-- Invariant preservation of the innermost `nosum` loop: `sum_c` remains
the tail sum and `sum_b` the sum of the run of `k1` plus one items ending
just before the tail. -/
lemma nosumInner_spec (s : List Int) (lower : Int) (sumA : Int) (k1 : Nat)
    (hA : sumA = frontSum s k1) :
    ∀ fuel k2 sumB sumC,
    sumC = tailSum s k2 →
    sumB = tailSum s (k2 + k1 + 1) - tailSum s k2 →
    k1 + k2 + 1 ≤ s.length →
    ∀ k2' sumB' sumC',
    nosumInner s lower sumA k1 fuel k2 sumB sumC = some (k2', sumB', sumC') →
    sumC' = tailSum s k2' ∧
    sumB' = tailSum s (k2' + k1 + 1) - tailSum s k2' ∧
    k1 + k2' + 1 ≤ s.length ∧
    frontSum s k1 + tailSum s k2' < lower ∧
    (lower ≤ tailSum s (k2' + 1) + frontSum s k1 ∨ k2' = k2) := by
  intro fuel
  induction fuel with
  | zero =>
    intro k2 sumB sumC _ _ _ k2' sumB' sumC' h
    simp [nosumInner] at h
  | succ fuel ih =>
    intro k2 sumB sumC hC hB hk k2' sumB' sumC' h
    simp only [nosumInner] at h
    by_cases hcond : sumA + sumC ≥ lower
    · rw [if_pos hcond] at h
      by_cases hg : 1 ≤ k2 ∧ k2 - 1 + k1 + 2 ≤ s.length
      · rw [if_pos hg] at h
        have hy : s.getD (s.length - (k2 - 1) - 1) 0 =
            tailSum s (k2 - 1 + 1) - tailSum s (k2 - 1) :=
          getD_eq_tailSum s (k2 - 1) (by omega)
        have hzidx : s.length - (k2 - 1) - k1 - 2 = s.length - (k2 + k1) - 1 := by
          omega
        have hz : s.getD (s.length - (k2 - 1) - k1 - 2) 0 =
            tailSum s (k2 + k1 + 1) - tailSum s (k2 + k1) := by
          rw [hzidx]
          exact getD_eq_tailSum s (k2 + k1) (by omega)
        have hk2t : tailSum s (k2 - 1 + 1) = tailSum s k2 := by
          have : k2 - 1 + 1 = k2 := by omega
          rw [this]
        have hC' : sumC - s.getD (s.length - (k2 - 1) - 1) 0 =
            tailSum s (k2 - 1) := by omega
        have hB' : sumB + s.getD (s.length - (k2 - 1) - 1) 0 -
            s.getD (s.length - (k2 - 1) - k1 - 2) 0 =
            tailSum s ((k2 - 1) + k1 + 1) - tailSum s (k2 - 1) := by
          have he : (k2 - 1) + k1 + 1 = k2 + k1 := by omega
          rw [he]
          omega
        have hres := ih (k2 - 1) _ _ hC' hB' (by omega) k2' sumB' sumC' h
        refine ⟨hres.1, hres.2.1, hres.2.2.1, hres.2.2.2.1, ?_⟩
        rcases hres.2.2.2.2 with h1 | h1
        · exact Or.inl h1
        · -- the recursive call did not move `k2` further: the entry
          -- condition of this iteration supplies the bound
          left
          have hk2e : k2' + 1 = k2 := by omega
          rw [hk2e]
          omega
      · rw [if_neg hg] at h
        cases h
    · rw [if_neg hcond] at h
      simp only [Option.some.injEq, Prod.mk.injEq] at h
      obtain ⟨rfl, rfl, rfl⟩ := h
      exact ⟨hC, hB, hk, by omega, Or.inr rfl⟩

/-- Invariants of the main `nosum` loop: on success `sum_a` is the sum
of the `k1` largest items; if the loop stopped with `sum_a` still below
`lower` (the pruned exit), the `k1` largest items plus the whole tail
sum below `lower` while `sum_b` exceeds `upper`. -/
lemma nosumMain_spec (s : List Int) (lower upper : Int)
    (hs : s.Sorted (· ≥ ·)) :
    ∀ fuel k1 sumA k2 sumB sumC,
    sumA = frontSum s k1 →
    (sumA < lower →
      sumC = tailSum s k2 ∧
      sumB = tailSum s (k2 + k1 + 1) - tailSum s k2 ∧
      k1 + k2 + 1 ≤ s.length ∧
      lower ≤ tailSum s (k2 + 1) + frontSum s k1 ∧
      frontSum s k1 + tailSum s k2 < lower) →
    ∀ k1f sumAf k2f sumBf sumCf,
    nosumMain s lower upper fuel k1 sumA k2 sumB sumC =
      some (k1f, sumAf, k2f, sumBf, sumCf) →
    sumAf = frontSum s k1f ∧
    (sumAf < lower →
      sumCf = tailSum s k2f ∧
      sumBf = tailSum s (k2f + k1f + 1) - tailSum s k2f ∧
      k1f + k2f + 1 ≤ s.length ∧
      frontSum s k1f + tailSum s k2f < lower ∧
      upper < sumBf) := by
  intro fuel
  induction fuel with
  | zero =>
    intro k1 sumA k2 sumB sumC _ _ k1f sumAf k2f sumBf sumCf h
    simp [nosumMain] at h
  | succ fuel ih =>
    intro k1 sumA k2 sumB sumC hA hinv k1f sumAf k2f sumBf sumCf h
    simp only [nosumMain] at h
    by_cases hcond : sumA < lower ∧ sumB ≤ upper
    · rw [if_pos hcond] at h
      obtain ⟨hinv1, hinv2, hinv3, hinv4, hinv5⟩ := hinv hcond.1
      by_cases hg : k1 + 1 ≤ s.length
      · rw [if_pos hg] at h
        have hget : s.getD k1 0 = frontSum s (k1 + 1) - frontSum s k1 :=
          getD_eq_frontSum s k1 (by omega)
        by_cases hbr : sumA + s.getD k1 0 < lower
        · rw [if_pos hbr] at h
          by_cases hg2 : 1 ≤ k2 ∧ k2 ≤ s.length
          · rw [if_pos hg2] at h
            have hy : s.getD (s.length - (k2 - 1) - 1) 0 =
                tailSum s (k2 - 1 + 1) - tailSum s (k2 - 1) :=
              getD_eq_tailSum s (k2 - 1) (by omega)
            have hk2t : tailSum s (k2 - 1 + 1) = tailSum s k2 := by
              have he : k2 - 1 + 1 = k2 := by omega
              rw [he]
            cases hin : nosumInner s lower (sumA + s.getD k1 0) (k1 + 1)
                (s.length + 1) (k2 - 1)
                (sumB + s.getD (s.length - (k2 - 1) - 1) 0)
                (sumC - s.getD (s.length - (k2 - 1) - 1) 0) with
            | none => rw [hin] at h; cases h
            | some r =>
              obtain ⟨k2x, sumBx, sumCx⟩ := r
              rw [hin] at h
              have hA2 : sumA + s.getD k1 0 = frontSum s (k1 + 1) := by omega
              have hCin : sumC - s.getD (s.length - (k2 - 1) - 1) 0 =
                  tailSum s (k2 - 1) := by omega
              have hBin : sumB + s.getD (s.length - (k2 - 1) - 1) 0 =
                  tailSum s ((k2 - 1) + (k1 + 1) + 1) - tailSum s (k2 - 1) := by
                have he : (k2 - 1) + (k1 + 1) + 1 = k2 + k1 + 1 := by omega
                rw [he]
                omega
              have hins := nosumInner_spec s lower _ (k1 + 1) hA2 (s.length + 1)
                (k2 - 1) _ _ hCin hBin (by omega) k2x sumBx sumCx hin
              obtain ⟨hc1, hc2, hc3, hc4, hc5⟩ := hins
              have hJ3 : lower ≤ tailSum s (k2x + 1) + frontSum s (k1 + 1) := by
                rcases hc5 with h5 | h5
                · exact h5
                · subst h5
                  have hswap : s.getD (s.length - k2 - 1) 0 ≤ s.getD k1 0 :=
                    sorted_getD_le s hs k1 (s.length - k2 - 1) (by omega) (by omega)
                  have hgetk2 : s.getD (s.length - k2 - 1) 0 =
                      tailSum s (k2 + 1) - tailSum s k2 :=
                    getD_eq_tailSum s k2 (by omega)
                  rw [hk2t]
                  omega
              exact ih (k1 + 1) _ k2x sumBx sumCx hA2
                (fun _ => ⟨hc1, hc2, hc3, hJ3, hc4⟩) k1f sumAf k2f sumBf sumCf h
          · rw [if_neg hg2] at h
            cases h
        · rw [if_neg hbr] at h
          exact ih (k1 + 1) _ k2 sumB sumC (by omega)
            (fun hlt => absurd hlt hbr) k1f sumAf k2f sumBf sumCf h
      · rw [if_neg hg] at h
        cases h
    · rw [if_neg hcond] at h
      simp only [Option.some.injEq, Prod.mk.injEq] at h
      obtain ⟨rfl, rfl, rfl, rfl, rfl⟩ := h
      refine ⟨hA, fun hlt => ?_⟩
      obtain ⟨hinv1, hinv2, hinv3, hinv4, hinv5⟩ := hinv hlt
      have hupper : upper < sumB := by
        rcases not_and_or.mp hcond with hbad | hu
        · exact absurd hlt hbad
        · omega
      exact ⟨hinv1, hinv2, hinv3, hinv5, hupper⟩

/-- C4: the guard of `nosum` — whenever `lower_bound ≤ 0` or
`upper_bound ≥ Σ sizes`, the function returns exactly `(false, 0, 0)`. -/
theorem nosum_guard_spec (s : List Int) (a b : Int) (h : a ≤ 0 ∨ b ≥ s.sum) :
    nosum s a b = some (false, 0, 0) := by
  unfold nosum
  rw [if_pos h]

/-- Witness for C4 at the concrete input `ss = [3], α = 0, β = 5`. -/
theorem nosum_guard_spec_witness :
    (((0 : Int) ≤ 0 ∨ (5 : Int) ≥ ([3] : List Int).sum)) ∧
    nosum [3] 0 5 = some (false, 0, 0) :=
  ⟨Or.inl le_rfl, nosum_guard_spec [3] 0 5 (Or.inl (le_refl 0))⟩

/-- C1 counterexample: for `ss = [8, 6, 2]` (non-increasing,
non-negative) and `α = β = 9`, the subsets of `ss` sum to
0, 2, 6, 8, 8, 10, 14 and 16 — none lies in `[9, 9]` — yet `nosum`
returns `pruned = false`, refuting the claimed "if and only if". -/
theorem nosum_iff_counterexample :
    nosum [8, 6, 2] 9 9 = some (false, 14, 8) ∧
    ¬ hasSubsetSumIn [8, 6, 2] 9 9 := by
  constructor
  · decide
  · rintro ⟨t, ht, h1, h2⟩
    have hmem : t ∈ ([8, 6, 2] : List Int).sublists :=
      List.mem_sublists.mpr ht
    have hall : ∀ u ∈ ([8, 6, 2] : List Int).sublists,
        ¬((9 : Int) ≤ u.sum ∧ u.sum ≤ 9) := by decide
    exact hall t hmem ⟨h1, h2⟩

/-- C1 (amended): soundness of `nosum` — for a non-increasing list of
non-negative sizes, whenever `nosum ss α β` finishes with
`pruned = true`, no subset of `ss` (the empty subset included) has a sum
in `[α, β]`.  (The converse direction claimed by the specification is
refuted by `nosum_iff_counterexample`.) -/
theorem nosum_pruned_sound (s : List Int) (a b x y : Int)
    (hs : s.Sorted (· ≥ ·)) (hn : ∀ v ∈ s, 0 ≤ v)
    (hr : nosum s a b = some (true, x, y)) :
    ¬ hasSubsetSumIn s a b := by
  rintro ⟨t, ht, ht1, ht2⟩
  unfold nosum at hr
  by_cases hguard : a ≤ 0 ∨ b ≥ s.sum
  · rw [if_pos hguard] at hr
    simp at hr
  · rw [if_neg hguard] at hr
    push_neg at hguard
    obtain ⟨ha, hb⟩ := hguard
    split at hr
    · cases hr
    · next k2 sumC htail =>
      have htspec := nosumTail_spec s a (s.length + 1) 0 0
        (by rw [tailSum_zero]) (by rw [tailSum_zero]; exact ha) k2 sumC htail
      obtain ⟨htc, htlt, htk, htnext⟩ := htspec
      split at hr
      · next hk2g =>
        split at hr
        · cases hr
        · next k1f sumAf k2f sumBf sumCf hmain =>
          simp only [Option.some.injEq, Prod.mk.injEq] at hr
          obtain ⟨hdec, hx, hy⟩ := hr
          have hAf : sumAf < a := of_decide_eq_true hdec
          have hB0 : s.getD (s.length - k2 - 1) 0 =
              tailSum s (k2 + 1) - tailSum s k2 := getD_eq_tailSum s k2 hk2g
          have hspec := nosumMain_spec s a b hs (s.length + 1) 0 0 k2
            (s.getD (s.length - k2 - 1) 0) sumC
            (by rw [frontSum_zero])
            (fun _ => by
              refine ⟨htc, ?_, by omega, ?_, ?_⟩
              · rw [hB0]
              · rw [frontSum_zero]
                omega
              · rw [frontSum_zero]
                omega)
            k1f sumAf k2f sumBf sumCf hmain
          obtain ⟨hAfe, hrest⟩ := hspec
          obtain ⟨hCfe, hBfe, hkf, hlowf, hupf⟩ := hrest hAf
          have := no_sublist_sum_in_interval s a b hs hn k1f k2f hkf hlowf
            (by rw [← hBfe]; exact hupf) t ht
          omega
      · next hk2gneg =>
        exact absurd htk hk2gneg

/-- Witness for the amended C1 at the concrete input
`ss = [5,4,1], α = β = 7` (the subsets of `[5,4,1]` sum to
0, 1, 4, 5, 5, 6, 9 and 10 — none lies in `[7,7]`). -/
theorem nosum_pruned_sound_witness :
    ([5, 4, 1] : List Int).Sorted (· ≥ ·) ∧
    (∀ v ∈ ([5, 4, 1] : List Int), 0 ≤ v) ∧
    nosum [5, 4, 1] 7 7 = some (true, 6, 9) ∧
    ¬ hasSubsetSumIn [5, 4, 1] 7 7 :=
  ⟨by decide, by decide, by decide,
    nosum_pruned_sound [5, 4, 1] 7 7 6 9 (by decide) (by decide) (by decide)⟩

/-! ### Totality of `nosum` (absence of panics) -/

/-- The first `nosum` loop finishes without a panic provided `lower` does
not exceed the total size. -/
lemma nosumTail_isSome (s : List Int) (lower : Int) (hsum : lower ≤ s.sum) :
    ∀ fuel k2 sumC, sumC = tailSum s k2 → tailSum s k2 < lower →
    k2 + 1 ≤ s.length → s.length + 1 - k2 ≤ fuel →
    (nosumTail s lower fuel k2 sumC).isSome := by
  intro fuel
  induction fuel with
  | zero =>
    intro k2 sumC _ _ hk hf
    omega
  | succ fuel ih =>
    intro k2 sumC hC hlt hk hf
    simp only [nosumTail]
    rw [if_pos hk]
    have hx : s.getD (s.length - k2 - 1) 0 =
        tailSum s (k2 + 1) - tailSum s k2 := getD_eq_tailSum s k2 hk
    by_cases hc : sumC + s.getD (s.length - k2 - 1) 0 < lower
    · rw [if_pos hc]
      have hnext : tailSum s (k2 + 1) < lower := by omega
      have hk' : k2 + 1 + 1 ≤ s.length := by
        rcases Nat.lt_or_ge (k2 + 1) s.length with h | h
        · omega
        · have : k2 + 1 = s.length := by omega
          rw [this, tailSum_of_length_le s _ (le_refl _)] at hnext
          omega
      exact ih (k2 + 1) _ (by omega) hnext hk' (by omega)
    · rw [if_neg hc]
      rfl

/-- The innermost `nosum` loop finishes without a panic. -/
lemma nosumInner_isSome (s : List Int) (lower : Int) (sumA : Int) (k1 : Nat)
    (hA : sumA = frontSum s k1) (hAlt : sumA < lower) :
    ∀ fuel k2 sumB sumC,
    sumC = tailSum s k2 →
    k1 + k2 + 1 ≤ s.length →
    k2 + 1 ≤ fuel →
    (nosumInner s lower sumA k1 fuel k2 sumB sumC).isSome := by
  intro fuel
  induction fuel with
  | zero =>
    intro k2 sumB sumC _ _ hf
    omega
  | succ fuel ih =>
    intro k2 sumB sumC hC hk hf
    simp only [nosumInner]
    by_cases hcond : sumA + sumC ≥ lower
    · rw [if_pos hcond]
      have hk2pos : 1 ≤ k2 := by
        by_contra hzero
        have : k2 = 0 := by omega
        subst this
        rw [tailSum_zero] at hC
        omega
      have hg : 1 ≤ k2 ∧ k2 - 1 + k1 + 2 ≤ s.length := ⟨hk2pos, by omega⟩
      rw [if_pos hg]
      have hy : s.getD (s.length - (k2 - 1) - 1) 0 =
          tailSum s (k2 - 1 + 1) - tailSum s (k2 - 1) :=
        getD_eq_tailSum s (k2 - 1) (by omega)
      have hk2t : tailSum s (k2 - 1 + 1) = tailSum s k2 := by
        have he : k2 - 1 + 1 = k2 := by omega
        rw [he]
      exact ih (k2 - 1) _ _ (by omega) (by omega) (by omega)
    · rw [if_neg hcond]
      rfl

/-- The main `nosum` loop finishes without a panic on a sorted list of
non-negative sizes. -/
lemma nosumMain_isSome (s : List Int) (lower upper : Int)
    (hs : s.Sorted (· ≥ ·)) :
    ∀ fuel k1 sumA k2 sumB sumC,
    sumA = frontSum s k1 →
    (sumA < lower →
      sumC = tailSum s k2 ∧
      sumB = tailSum s (k2 + k1 + 1) - tailSum s k2 ∧
      k1 + k2 + 1 ≤ s.length ∧
      lower ≤ tailSum s (k2 + 1) + frontSum s k1 ∧
      frontSum s k1 + tailSum s k2 < lower) →
    k1 ≤ s.length →
    s.length + 1 - k1 ≤ fuel →
    (nosumMain s lower upper fuel k1 sumA k2 sumB sumC).isSome := by
  intro fuel
  induction fuel with
  | zero =>
    intro k1 sumA k2 sumB sumC hA hinv hk1 hf
    omega
  | succ fuel ih =>
    intro k1 sumA k2 sumB sumC hA hinv hk1 hf
    simp only [nosumMain]
    by_cases hcond : sumA < lower ∧ sumB ≤ upper
    · rw [if_pos hcond]
      obtain ⟨hinv1, hinv2, hinv3, hinv4, hinv5⟩ := hinv hcond.1
      have hg : k1 + 1 ≤ s.length := by omega
      rw [if_pos hg]
      have hget : s.getD k1 0 = frontSum s (k1 + 1) - frontSum s k1 :=
        getD_eq_frontSum s k1 (by omega)
      by_cases hbr : sumA + s.getD k1 0 < lower
      · rw [if_pos hbr]
        have hk2pos : 1 ≤ k2 := by
          by_contra hzero
          have hz : k2 = 0 := by omega
          subst hz
          -- with an empty tail, J3 forces the next item to reach `lower`
          have hlast : s.getD (s.length - 0 - 1) 0 =
              tailSum s (0 + 1) - tailSum s 0 := getD_eq_tailSum s 0 (by omega)
          have hswap : s.getD (s.length - 0 - 1) 0 ≤ s.getD k1 0 :=
            sorted_getD_le s hs k1 (s.length - 0 - 1) (by omega) (by omega)
          rw [tailSum_zero] at hlast
          omega
        have hg2 : 1 ≤ k2 ∧ k2 ≤ s.length := ⟨hk2pos, by omega⟩
        rw [if_pos hg2]
        have hy : s.getD (s.length - (k2 - 1) - 1) 0 =
            tailSum s (k2 - 1 + 1) - tailSum s (k2 - 1) :=
          getD_eq_tailSum s (k2 - 1) (by omega)
        have hk2t : tailSum s (k2 - 1 + 1) = tailSum s k2 := by
          have he : k2 - 1 + 1 = k2 := by omega
          rw [he]
        have hA2 : sumA + s.getD k1 0 = frontSum s (k1 + 1) := by omega
        have hCin : sumC - s.getD (s.length - (k2 - 1) - 1) 0 =
            tailSum s (k2 - 1) := by omega
        have hBin : sumB + s.getD (s.length - (k2 - 1) - 1) 0 =
            tailSum s ((k2 - 1) + (k1 + 1) + 1) - tailSum s (k2 - 1) := by
          have he : (k2 - 1) + (k1 + 1) + 1 = k2 + k1 + 1 := by omega
          rw [he]
          omega
        have hinner := nosumInner_isSome s lower _ (k1 + 1) hA2 hbr
          (s.length + 1) (k2 - 1) (sumB + s.getD (s.length - (k2 - 1) - 1) 0)
          (sumC - s.getD (s.length - (k2 - 1) - 1) 0) hCin (by omega) (by omega)
        obtain ⟨res, hres⟩ := Option.isSome_iff_exists.mp hinner
        obtain ⟨k2x, sumBx, sumCx⟩ := res
        rw [hres]
        have hins := nosumInner_spec s lower _ (k1 + 1) hA2 (s.length + 1)
          (k2 - 1) _ _ hCin hBin (by omega) k2x sumBx sumCx hres
        obtain ⟨hc1, hc2, hc3, hc4, hc5⟩ := hins
        have hJ3 : lower ≤ tailSum s (k2x + 1) + frontSum s (k1 + 1) := by
          rcases hc5 with h5 | h5
          · exact h5
          · subst h5
            have hswap : s.getD (s.length - k2 - 1) 0 ≤ s.getD k1 0 :=
              sorted_getD_le s hs k1 (s.length - k2 - 1) (by omega) (by omega)
            have hgetk2 : s.getD (s.length - k2 - 1) 0 =
                tailSum s (k2 + 1) - tailSum s k2 :=
              getD_eq_tailSum s k2 (by omega)
            rw [hk2t]
            omega
        exact ih (k1 + 1) _ k2x sumBx sumCx hA2
          (fun _ => ⟨hc1, hc2, hc3, hJ3, hc4⟩) (by omega) (by omega)
      · rw [if_neg hbr]
        exact ih (k1 + 1) _ k2 sumB sumC (by omega)
          (fun hlt => absurd hlt hbr) (by omega) (by omega)
    · rw [if_neg hcond]
      rfl

/-- C10: `nosum` is total — for every non-increasing list of
non-negative sizes and all bounds `lower ≤ upper` (the empty list
included), the Rust code would finish without a panic: every slice index
stays in range and neither `k1` nor `k2` underflows.  In the model this
is exactly the statement that `nosum` returns `some` value. -/
theorem nosum_total (s : List Int) (a b : Int)
    (hs : s.Sorted (· ≥ ·)) (hn : ∀ v ∈ s, 0 ≤ v) (hab : a ≤ b) :
    ∃ r, nosum s a b = some r := by
  rw [← Option.isSome_iff_exists]
  unfold nosum
  by_cases hguard : a ≤ 0 ∨ b ≥ s.sum
  · rw [if_pos hguard]
    rfl
  · rw [if_neg hguard]
    push_neg at hguard
    obtain ⟨ha, hb⟩ := hguard
    have hsumpos : 0 < s.sum := by omega
    have hlen : 1 ≤ s.length := by
      by_contra hnil
      have : s = [] := by
        cases s with
        | nil => rfl
        | cons v l => simp at hnil
      rw [this] at hsumpos
      simp at hsumpos
    have htail := nosumTail_isSome s a (by omega) (s.length + 1) 0 0
      (by rw [tailSum_zero]) (by rw [tailSum_zero]; exact ha) (by omega) (by omega)
    obtain ⟨p, hp⟩ := Option.isSome_iff_exists.mp htail
    obtain ⟨k2, sumC⟩ := p
    simp only [hp]
    have htspec := nosumTail_spec s a (s.length + 1) 0 0
      (by rw [tailSum_zero]) (by rw [tailSum_zero]; exact ha) k2 sumC hp
    obtain ⟨htc, htlt, htk, htnext⟩ := htspec
    rw [if_pos htk]
    have hB0 : s.getD (s.length - k2 - 1) 0 =
        tailSum s (k2 + 1) - tailSum s k2 := getD_eq_tailSum s k2 htk
    have hmain := nosumMain_isSome s a b hs (s.length + 1) 0 0 k2
      (s.getD (s.length - k2 - 1) 0) sumC
      (by rw [frontSum_zero])
      (fun _ => by
        refine ⟨htc, ?_, by omega, ?_, ?_⟩
        · rw [hB0]
        · rw [frontSum_zero]
          omega
        · rw [frontSum_zero]
          omega)
      (by omega)
      (by omega)
    obtain ⟨r, hrr⟩ := Option.isSome_iff_exists.mp hmain
    obtain ⟨k1f, sumAf, k2f, sumBf, sumCf⟩ := r
    simp only [hrr]
    rfl

/-- Witness for C10 at the concrete input `ss = [7, 6], α = 4, β = 5`,
which exercises both loops of the algorithm. -/
theorem nosum_total_witness :
    ([7, 6] : List Int).Sorted (· ≥ ·) ∧
    (∀ v ∈ ([7, 6] : List Int), 0 ≤ v) ∧ (4 : Int) ≤ 5 ∧
    ∃ r, nosum [7, 6] 4 5 = some r :=
  ⟨by decide, by decide, by norm_num,
    nosum_total [7, 6] 4 5 (by decide) (by decide) (by norm_num)⟩

/-! ## Predicates and the integer domain store

The `Assignments` store, its mutators and the test harness are not part
of the analysed sources; they are modelled from the specification
(sections 3 and 4.1). -/

/-- Atomic predicate over integer variables, identified by their index:
`[x ≥ v]`, `[x ≤ v]`, `[x = v]` or `[x ≠ v]`. -/
inductive Pred where
  | ge (x : Nat) (v : Int)
  | le (x : Nat) (v : Int)
  | eq (x : Nat) (v : Int)
  | ne (x : Nat) (v : Int)
deriving DecidableEq, Repr

/-- Domain of one integer variable: bounds plus removed interior values. -/
structure VarDom where
  lb : Int
  ub : Int
  holes : List Int
deriving DecidableEq, Repr

/-- Modelled from the spec: the domain store holds the current domain of
every variable and an append-only log of bound events, each carrying the
tightest predicate the change enforces together with its reason. -/
structure Store where
  doms : List VarDom
  trail : List (Pred × List Pred)
deriving DecidableEq, Repr

def Store.dom (σ : Store) (x : Nat) : VarDom :=
  σ.doms.getD x ⟨0, 0, []⟩

def Store.lower_bound (σ : Store) (x : Nat) : Int :=
  (σ.dom x).lb

def Store.upper_bound (σ : Store) (x : Nat) : Int :=
  (σ.dom x).ub

/-- Modelled from the spec: a variable is fixed when its bounds meet. -/
def Store.is_fixed (σ : Store) (x : Nat) : Bool :=
  decide (σ.lower_bound x = σ.upper_bound x)

/-- Modelled from the spec: membership of a value in a domain. -/
def Store.contains (σ : Store) (x : Nat) (v : Int) : Bool :=
  decide (σ.lower_bound x ≤ v ∧ v ≤ σ.upper_bound x ∧ ¬ (σ.dom x).holes.contains v = true)

/-- The integers from `lo` to `hi` inclusive. -/
def scanRange (lo hi : Int) : List Int :=
  (List.range (hi + 1 - lo).toNat).map (fun (o : Nat) => lo + (o : Int))

/-- Smallest value in `[lo, hi]` not removed from the domain. -/
def VarDom.firstIn (d : VarDom) (lo hi : Int) : Option Int :=
  (scanRange lo hi).find? (fun v => ! d.holes.contains v)

/-- Largest value in `[lo, hi]` not removed from the domain. -/
def VarDom.lastIn (d : VarDom) (lo hi : Int) : Option Int :=
  (scanRange lo hi).reverse.find? (fun v => ! d.holes.contains v)

/-- Modelled from the spec: raising a lower bound.  A non-tightening
value is a no-op; an empty resulting domain is an error; otherwise the
bound snaps past removed values, holes are shrunk into the bounds, and
one trail entry with the tightest enforced predicate is appended. -/
def Store.setLowerBound (σ : Store) (x : Nat) (v : Int) (reason : List Pred) :
    Except Unit Store :=
  let d := σ.dom x
  if v ≤ d.lb then .ok σ
  else
    match d.firstIn v d.ub with
    | none => .error ()
    | some w =>
      .ok { doms := σ.doms.set x ⟨w, d.ub, d.holes.filter (fun h => decide (w < h ∧ h < d.ub))⟩,
            trail := σ.trail ++ [(Pred.ge x w, reason)] }

/-- Modelled from the spec: lowering an upper bound, symmetric to
`Store.setLowerBound`. -/
def Store.setUpperBound (σ : Store) (x : Nat) (v : Int) (reason : List Pred) :
    Except Unit Store :=
  let d := σ.dom x
  if d.ub ≤ v then .ok σ
  else
    match d.lastIn d.lb v with
    | none => .error ()
    | some w =>
      .ok { doms := σ.doms.set x ⟨d.lb, w, d.holes.filter (fun h => decide (d.lb < h ∧ h < w))⟩,
            trail := σ.trail ++ [(Pred.le x w, reason)] }

/-- Modelled from the spec: removing a single value.  Removing an absent
value is a no-op, removing the last value is an error, removing a bound
moves the bound, and removing an interior value records a hole. -/
def Store.remove (σ : Store) (x : Nat) (v : Int) (reason : List Pred) :
    Except Unit Store :=
  let d := σ.dom x
  if ¬ (σ.contains x v = true) then .ok σ
  else if d.lb = v ∧ d.ub = v then .error ()
  else if v = d.lb then
    match d.firstIn (v + 1) d.ub with
    | none => .error ()
    | some w =>
      .ok { doms := σ.doms.set x ⟨w, d.ub, d.holes.filter (fun h => decide (w < h ∧ h < d.ub))⟩,
            trail := σ.trail ++ [(Pred.ge x w, reason)] }
  else if v = d.ub then
    match d.lastIn d.lb (v - 1) with
    | none => .error ()
    | some w =>
      .ok { doms := σ.doms.set x ⟨d.lb, w, d.holes.filter (fun h => decide (d.lb < h ∧ h < w))⟩,
            trail := σ.trail ++ [(Pred.le x w, reason)] }
  else
    .ok { doms := σ.doms.set x ⟨d.lb, d.ub, d.holes ++ [v]⟩,
          trail := σ.trail ++ [(Pred.ne x v, reason)] }

/-- Modelled from the spec: posting a predicate; an equality decomposes
into its two bound updates. -/
def Store.postPredicate (σ : Store) (p : Pred) (reason : List Pred) :
    Except Unit Store :=
  match p with
  | .ge x v => σ.setLowerBound x v reason
  | .le x v => σ.setUpperBound x v reason
  | .ne x v => σ.remove x v reason
  | .eq x v =>
    match σ.setLowerBound x v reason with
    | .error e => .error e
    | .ok σ1 => σ1.setUpperBound x v reason

/-- The reason stored with the (first) trail entry for predicate `p`. -/
def Store.reasonFor (σ : Store) (p : Pred) : Option (List Pred) :=
  (σ.trail.find? (fun e => decide (e.1 = p))).map (fun e => e.2)

/-! ## The bin-packing propagator (bin_packing.rs, lines 17-42, 525-869) -/

/-- Inconsistency signalled by a propagator: a store mutation emptied a
domain, or the propagator detected infeasibility with a reason. -/
inductive Inconsistency where
  | emptyDomain
  | conflict (c : List Pred)
deriving DecidableEq, Repr

/-- Outcome of running the propagator: a Rust panic, `Err(inconsistency)`
or `Ok` with the updated store. -/
inductive PropResult where
  | panic
  | fail (inc : Inconsistency)
  | ok (σ : Store)
deriving DecidableEq, Repr

def PropResult.isOk : PropResult → Bool
  | .ok _ => true
  | _ => false

def PropResult.storeD : PropResult → Store
  | .ok σ => σ
  | _ => ⟨[], []⟩

/-- The bin-packing propagator state: load variables (one per bin), item
variables (bin choice per item) and item sizes, items sorted by
non-increasing size. -/
structure BinPacking where
  loads : List Nat
  bins : List Nat
  sizes : List Int
deriving DecidableEq, Repr

/-- Insert into a list of item/size pairs ordered by non-increasing size. -/
def insertBySizeDesc (p : Nat × Int) : List (Nat × Int) → List (Nat × Int)
  | [] => [p]
  | q :: rest => if q.2 ≥ p.2 then q :: insertBySizeDesc p rest else p :: q :: rest

/-- Sort item/size pairs by non-increasing size (the constructor's
`sort_unstable_by` comparing `size_b.cmp(size_a)`). -/
def sortBySizeDesc : List (Nat × Int) → List (Nat × Int)
  | [] => []
  | p :: rest => insertBySizeDesc p (sortBySizeDesc rest)

/-- Constructor `BinPackingPropagator::new`: sorts the items (bins and sizes) jointly
by non-increasing size. -/
def BinPacking.new (loads bins : List Nat) (sizes : List Int) : BinPacking :=
  let z := sortBySizeDesc (bins.zip sizes)
  ⟨loads, z.map Prod.fst, z.map Prod.snd⟩

/-- The single-item-elimination remove loop (propagate, lines 691-701):
remove bin `j` from the domain of every item in `to_remove`. -/
def elimRemoveLoop (jv : Int) (reason : List Pred) :
    List (Nat × Nat) → Store → Except Unit Store
  | [], σ => .ok σ
  | p :: rest, σ =>
    match σ.remove p.2 jv reason with
    | .error e => .error e
    | .ok σ1 => elimRemoveLoop jv reason rest σ1

/-- The single-item-commitment loop (propagate, lines 727-742): post
`B_i = j` for every candidate whose absence makes the bin's lower bound
unreachable, collecting the committed items. -/
def commitLoop (bp : BinPacking) (j : Nat) (jv total : Int)
    (reason : List Pred) :
    List (Nat × Nat) → Store → List (Nat × Nat) →
    Except Unit (Store × List (Nat × Nat))
  | [], σ, committed => .ok (σ, committed)
  | p :: rest, σ, committed =>
    if total - bp.sizes.getD p.1 0 < σ.lower_bound (bp.loads.getD j 0) then
      match σ.postPredicate (Pred.eq p.2 jv) reason with
      | .error e => .error e
      | .ok σ1 => commitLoop bp j jv total reason rest σ1 (committed ++ [p])
    else commitLoop bp j jv total reason rest σ committed

/-- The NoSum elimination/commitment loop (propagate, lines 806-839). -/
def nosumElimCommitLoop (bp : BinPacking) (j : Nat) (jv : Int)
    (candidate_sizes : List Int) (packed_sum : Int) (creason : List Pred)
    (cands : List (Nat × Nat)) :
    List Nat → Store → PropResult
  | [], σ => .ok σ
  | c :: rest, σ =>
    let lj := bp.loads.getD j 0
    let current_sizes :=
      (candidate_sizes.enum.filter (fun q => decide (q.1 ≠ c))).map (fun q => q.2)
    match nosum current_sizes
        (σ.lower_bound lj - packed_sum - candidate_sizes.getD c 0)
        (σ.upper_bound lj - packed_sum - candidate_sizes.getD c 0) with
    | none => .panic
    | some (eliminate, _, _) =>
      match (if eliminate then
          σ.remove (cands.getD c (0, 0)).2 jv
            (creason ++ [Pred.ge lj (σ.lower_bound lj), Pred.le lj (σ.upper_bound lj)])
        else .ok σ) with
      | .error _ => .fail .emptyDomain
      | .ok σ1 =>
        match nosum current_sizes (σ1.lower_bound lj - packed_sum)
            (σ1.upper_bound lj - packed_sum) with
        | none => .panic
        | some (commit, _, _) =>
          match (if commit then
              σ1.postPredicate (Pred.eq (cands.getD c (0, 0)).2 jv)
                (creason ++ [Pred.ge lj (σ1.lower_bound lj), Pred.le lj (σ1.upper_bound lj)])
            else .ok σ1) with
          | .error _ => .fail .emptyDomain
          | .ok σ2 =>
            nosumElimCommitLoop bp j jv candidate_sizes packed_sum creason cands rest σ2

/-- The bound the lower-coherence rule enforces on load `j`: the total
item size minus the sum of the other bins' upper bounds. -/
def coherenceLowerTarget (bp : BinPacking) (total_size : Int) (σ : Store)
    (j : Nat) : Int :=
  total_size -
    ((bp.loads.enum.filter (fun p => decide (p.1 ≠ j))).map
      (fun p => σ.upper_bound p.2)).sum

/-- The reason of the lower-coherence rule: the upper-bound atoms of all
other loads, at their bounds current when bin `j` is processed. -/
def coherenceLowerReason (bp : BinPacking) (σ : Store) (j : Nat) : List Pred :=
  (bp.loads.enum.filter (fun p => decide (p.1 ≠ j))).map
    (fun p => Pred.le p.2 (σ.upper_bound p.2))

/-- The bound the upper-coherence rule enforces on load `j`. -/
def coherenceUpperTarget (bp : BinPacking) (total_size : Int) (σ : Store)
    (j : Nat) : Int :=
  total_size -
    ((bp.loads.enum.filter (fun p => decide (p.1 ≠ j))).map
      (fun p => σ.lower_bound p.2)).sum

/-- The reason of the upper-coherence rule: the lower-bound atoms of all
other loads. -/
def coherenceUpperReason (bp : BinPacking) (σ : Store) (j : Nat) : List Pred :=
  (bp.loads.enum.filter (fun p => decide (p.1 ≠ j))).map
    (fun p => Pred.ge p.2 (σ.lower_bound p.2))

/-- The lower load-and-size-coherence step (propagate, lines 620-640). -/
def lowerCoherenceStep (bp : BinPacking) (total_size : Int) (σ : Store)
    (j : Nat) : Except Unit Store :=
  σ.setLowerBound (bp.loads.getD j 0) (coherenceLowerTarget bp total_size σ j)
    (coherenceLowerReason bp σ j)

/-- The upper load-and-size-coherence step (propagate, lines 645-665),
symmetric to `lowerCoherenceStep`. -/
def upperCoherenceStep (bp : BinPacking) (total_size : Int) (σ : Store)
    (j : Nat) : Except Unit Store :=
  σ.setUpperBound (bp.loads.getD j 0) (coherenceUpperTarget bp total_size σ j)
    (coherenceUpperReason bp σ j)

/-- One per-bin sweep of `BinPackingPropagator::propagate`
(bin_packing.rs, lines 537-840), transcribed rule by rule, including the
candidate-set updates of lines 704-707 and 745-748 exactly as written
(their filters keep the removed respectively committed items). -/
def propagateBin (bp : BinPacking) (total_size : Int) (σ : Store) (j : Nat) :
    PropResult :=
  let jv : Int := (j : Int)
  let lj := bp.loads.getD j 0
  let possible_set := bp.bins.enum.filter (fun p => σ.contains p.2 jv)
  let required_set := possible_set.filter (fun p => σ.is_fixed p.2)
  let candidate_set := possible_set.filter (fun p => ! σ.is_fixed p.2)
  let candidate_reason :=
    (bp.bins.filter (fun x => ! σ.contains x jv)).map (fun x => Pred.ne x jv) ++
      required_set.map (fun p => Pred.eq p.2 jv)
  let packed_sum := (required_set.map (fun p => bp.sizes.getD p.1 0)).sum
  let lower_maintenance_reason := required_set.map (fun p => Pred.eq p.2 jv)
  match σ.setLowerBound lj packed_sum lower_maintenance_reason with
  | .error _ => .fail .emptyDomain
  | .ok σ1 =>
  let candidate_sum := (candidate_set.map (fun p => bp.sizes.getD p.1 0)).sum
  match σ1.setUpperBound lj (packed_sum + candidate_sum) candidate_reason with
  | .error _ => .fail .emptyDomain
  | .ok σ2 =>
  match lowerCoherenceStep bp total_size σ2 j with
  | .error _ => .fail .emptyDomain
  | .ok σ3 =>
  match upperCoherenceStep bp total_size σ3 j with
  | .error _ => .fail .emptyDomain
  | .ok σ4 =>
  let single_elimination_reason :=
    lower_maintenance_reason ++ [Pred.le lj (σ4.upper_bound lj)]
  let remaining_space := σ4.upper_bound lj - packed_sum
  let to_remove :=
    candidate_set.filter (fun p => decide (bp.sizes.getD p.1 0 > remaining_space))
  match elimRemoveLoop jv single_elimination_reason to_remove σ4 with
  | .error _ => .fail .emptyDomain
  | .ok σ5 =>
  let candidate_reason2 := candidate_reason ++ to_remove.map (fun p => Pred.ne p.2 jv)
  let candidate_set2 :=
    candidate_set.filter (fun p => (to_remove.map (fun q => q.1)).contains p.1)
  let total_size2 :=
    packed_sum + (candidate_set2.map (fun p => bp.sizes.getD p.1 0)).sum
  let single_commitment_reason :=
    candidate_reason2 ++ [Pred.ge lj (σ5.lower_bound lj)]
  match commitLoop bp j jv total_size2 single_commitment_reason candidate_set2 σ5 [] with
  | .error _ => .fail .emptyDomain
  | .ok (σ6, committed) =>
  let required_set2 := required_set ++ committed
  let candidate_reason3 := candidate_reason2 ++ committed.map (fun p => Pred.eq p.2 jv)
  let candidate_set3 :=
    candidate_set2.filter (fun p => (committed.map (fun q => q.1)).contains p.1)
  let candidate_sizes := candidate_set3.map (fun p => bp.sizes.getD p.1 0)
  let packed_sum2 := (required_set2.map (fun p => bp.sizes.getD p.1 0)).sum
  match nosum candidate_sizes (σ6.lower_bound lj - packed_sum2)
      (σ6.upper_bound lj - packed_sum2) with
  | none => .panic
  | some (prune, _, _) =>
  if prune then
    .fail (.conflict (candidate_reason3 ++
      [Pred.ge lj (σ6.lower_bound lj), Pred.le lj (σ6.upper_bound lj)]))
  else
  match nosum candidate_sizes (σ6.lower_bound lj - packed_sum2)
      (σ6.lower_bound lj - packed_sum2) with
  | none => .panic
  | some (adjustL, _, bl) =>
  match (if adjustL then
      σ6.setLowerBound lj (packed_sum2 + bl)
        (candidate_reason3 ++ [Pred.ge lj (σ6.lower_bound lj)])
    else .ok σ6) with
  | .error _ => .fail .emptyDomain
  | .ok σ7 =>
  match nosum candidate_sizes (σ7.upper_bound lj - packed_sum2)
      (σ7.upper_bound lj - packed_sum2) with
  | none => .panic
  | some (adjustU, au, _) =>
  match (if adjustU then
      σ7.setUpperBound lj (packed_sum2 + au)
        (candidate_reason3 ++ [Pred.le lj (σ7.upper_bound lj)])
    else .ok σ7) with
  | .error _ => .fail .emptyDomain
  | .ok σ8 =>
  nosumElimCommitLoop bp j jv candidate_sizes packed_sum2 candidate_reason3
    candidate_set3 (List.range candidate_set3.length) σ8

/-- Run `propagateBin` over the bins in order, stopping at the first
inconsistency or panic. -/
def propagateLoop (bp : BinPacking) (total_size : Int) :
    List Nat → Store → PropResult
  | [], σ => .ok σ
  | j :: rest, σ =>
    match propagateBin bp total_size σ j with
    | .ok σ1 => propagateLoop bp total_size rest σ1
    | r => r

/-- The full sweep `BinPackingPropagator::propagate` (bin_packing.rs, lines 525-869). -/
def BinPacking.propagate (bp : BinPacking) (σ : Store) : PropResult :=
  propagateLoop bp bp.sizes.sum (List.range bp.loads.length) σ

/-! ### Behaviour of the store mutators on hole-free domains -/

lemma scanRange_cons (lo hi : Int) (h : lo ≤ hi) :
    scanRange lo hi = lo :: scanRange (lo + 1) hi := by
  unfold scanRange
  have h1 : (hi + 1 - lo).toNat = (hi + 1 - (lo + 1)).toNat + 1 := by omega
  rw [h1, List.range_succ_eq_map]
  simp only [List.map_cons, List.map_map]
  congr 1
  · simp
  · apply List.map_congr_left
    intro v _
    simp only [Function.comp_apply]
    push_cast
    ring

lemma scanRange_nil (lo hi : Int) (h : hi < lo) : scanRange lo hi = [] := by
  unfold scanRange
  have h1 : (hi + 1 - lo).toNat = 0 := by omega
  rw [h1]
  rfl

lemma firstIn_hole_free (d : VarDom) (hd : d.holes = []) (lo hi : Int) :
    d.firstIn lo hi = if lo ≤ hi then some lo else none := by
  unfold VarDom.firstIn
  by_cases h : lo ≤ hi
  · rw [if_pos h, scanRange_cons lo hi h, List.find?_cons]
    simp [hd]
  · rw [if_neg h, scanRange_nil lo hi (by omega)]
    rfl

lemma lastIn_hole_free (d : VarDom) (hd : d.holes = []) (lo hi : Int) :
    d.lastIn lo hi = if lo ≤ hi then some hi else none := by
  unfold VarDom.lastIn
  by_cases h : lo ≤ hi
  · rw [if_pos h]
    have hsplit : scanRange lo hi = scanRange lo (hi - 1) ++ [hi] := by
      unfold scanRange
      have h1 : (hi + 1 - lo).toNat = (hi - 1 + 1 - lo).toNat + 1 := by omega
      rw [h1, List.range_succ]
      simp only [List.map_append, List.map_cons, List.map_nil]
      congr 2
      omega
    rw [hsplit]
    simp [hd]
  · rw [if_neg h, scanRange_nil lo hi (by omega)]
    rfl

lemma Store.dom_of_set (σ : Store) (x : Nat) (nd : VarDom)
    (t : List (Pred × List Pred)) (hx : x < σ.doms.length) :
    (Store.mk (σ.doms.set x nd) t).dom x = nd := by
  unfold Store.dom
  rw [List.getD_eq_getElem _ _ (by simpa using hx)]
  exact List.getElem_set_self _

/-- Behaviour of `set_lower_bound` on a hole-free domain: a no-op below the current
bound, an error above the upper bound, and otherwise exactly the
requested bound with one trail entry recording the reason. -/
lemma setLowerBound_hole_free (σ : Store) (x : Nat) (v : Int)
    (reason : List Pred) (hd : (σ.dom x).holes = [])
    (hx : x < σ.doms.length) (hv : v ≤ σ.upper_bound x) :
    ∃ σ1, σ.setLowerBound x v reason = .ok σ1 ∧
      σ1.lower_bound x = max (σ.lower_bound x) v ∧
      σ1.upper_bound x = σ.upper_bound x ∧
      (σ.lower_bound x < v →
        σ1.trail = σ.trail ++ [(Pred.ge x v, reason)]) ∧
      (v ≤ σ.lower_bound x → σ1 = σ) := by
  unfold Store.setLowerBound
  by_cases hle : v ≤ (σ.dom x).lb
  · rw [if_pos hle]
    refine ⟨σ, rfl, ?_, rfl, ?_, fun _ => rfl⟩
    · unfold Store.lower_bound
      omega
    · intro hlt
      unfold Store.lower_bound at hlt
      omega
  · rw [if_neg hle]
    rw [firstIn_hole_free _ hd]
    have hvu : v ≤ (σ.dom x).ub := hv
    rw [if_pos hvu]
    refine ⟨_, rfl, ?_, ?_, fun _ => rfl, ?_⟩
    · unfold Store.lower_bound
      rw [Store.dom_of_set _ _ _ _ hx]
      simp only
      omega
    · unfold Store.upper_bound
      rw [Store.dom_of_set _ _ _ _ hx]
    · intro hge
      unfold Store.lower_bound at hge
      omega

/-- Behaviour of `set_upper_bound` on a hole-free domain, symmetric to
`setLowerBound_hole_free`. -/
lemma setUpperBound_hole_free (σ : Store) (x : Nat) (v : Int)
    (reason : List Pred) (hd : (σ.dom x).holes = [])
    (hx : x < σ.doms.length) (hv : σ.lower_bound x ≤ v) :
    ∃ σ1, σ.setUpperBound x v reason = .ok σ1 ∧
      σ1.upper_bound x = min (σ.upper_bound x) v ∧
      σ1.lower_bound x = σ.lower_bound x ∧
      (v < σ.upper_bound x →
        σ1.trail = σ.trail ++ [(Pred.le x v, reason)]) ∧
      (σ.upper_bound x ≤ v → σ1 = σ) := by
  unfold Store.setUpperBound
  by_cases hle : (σ.dom x).ub ≤ v
  · rw [if_pos hle]
    refine ⟨σ, rfl, ?_, rfl, ?_, fun _ => rfl⟩
    · unfold Store.upper_bound
      omega
    · intro hlt
      unfold Store.upper_bound at hlt
      omega
  · rw [if_neg hle]
    rw [lastIn_hole_free _ hd]
    have hvl : (σ.dom x).lb ≤ v := hv
    rw [if_pos hvl]
    refine ⟨_, rfl, ?_, ?_, fun _ => rfl, ?_⟩
    · unfold Store.upper_bound
      rw [Store.dom_of_set _ _ _ _ hx]
      simp only
      omega
    · unfold Store.lower_bound
      rw [Store.dom_of_set _ _ _ _ hx]
    · intro hge
      unfold Store.upper_bound at hge
      omega

/-! ### Concrete propagation scenarios -/

/-- Load-maintenance scenario: loads `L1, L2, L3` (variables 0-2) in
`[0, 10]`; items `B1, B2` (variables 3, 4) fixed to bin 0, `B3`
(variable 5) fixed to bin 1, `B4` (variable 6) in `{1, 2}`. -/
def storeC3 : Store :=
  ⟨[⟨0, 10, []⟩, ⟨0, 10, []⟩, ⟨0, 10, []⟩, ⟨0, 0, []⟩, ⟨0, 0, []⟩,
    ⟨1, 1, []⟩, ⟨1, 2, []⟩], []⟩

/-- The propagator of the load-maintenance scenario, with item sizes
`[2, 3, 4, 5]` for `B1..B4` (the constructor re-sorts them). -/
def bpC3 : BinPacking := BinPacking.new [0, 1, 2] [3, 4, 5, 6] [2, 3, 4, 5]

/-- C3: from loads in `[0,10]`, items `B1 = B2 = 0`, `B3 = 1`,
`B4 ∈ {1,2}` and sizes `[2,3,4,5]`, one run of the propagator yields
`L1 ∈ [5,5]`, `L2 ∈ [4,9]`, `L3 ∈ [0,5]`; the stored reason for
`[L1 ≥ 5]` is (as a set) `[B1=0] ∧ [B2=0]` and the stored reason for
`[L1 ≤ 5]` is `[B1=0] ∧ [B2=0] ∧ [B3≠0] ∧ [B4≠0]`. -/
theorem bin_packing_load_maintenance_scenario :
    (bpC3.propagate storeC3).isOk = true ∧
    (bpC3.propagate storeC3).storeD.lower_bound 0 = 5 ∧
    (bpC3.propagate storeC3).storeD.upper_bound 0 = 5 ∧
    (bpC3.propagate storeC3).storeD.lower_bound 1 = 4 ∧
    (bpC3.propagate storeC3).storeD.upper_bound 1 = 9 ∧
    (bpC3.propagate storeC3).storeD.lower_bound 2 = 0 ∧
    (bpC3.propagate storeC3).storeD.upper_bound 2 = 5 ∧
    (bpC3.propagate storeC3).storeD.reasonFor (Pred.ge 0 5) =
      some [Pred.eq 4 0, Pred.eq 3 0] ∧
    [Pred.eq 4 0, Pred.eq 3 0].Perm [Pred.eq 3 0, Pred.eq 4 0] ∧
    (bpC3.propagate storeC3).storeD.reasonFor (Pred.le 0 5) =
      some [Pred.ne 6 0, Pred.ne 5 0, Pred.eq 4 0, Pred.eq 3 0] ∧
    [Pred.ne 6 0, Pred.ne 5 0, Pred.eq 4 0, Pred.eq 3 0].Perm
      [Pred.eq 3 0, Pred.eq 4 0, Pred.ne 5 0, Pred.ne 6 0] := by
  decide

/-- Coherence scenario: loads `[4..5], [11..13], [3..9]` (variables
0-2), four items (variables 3-6) each with domain `{0,1,2}`. -/
def storeC5 : Store :=
  ⟨[⟨4, 5, []⟩, ⟨11, 13, []⟩, ⟨3, 9, []⟩, ⟨0, 2, []⟩, ⟨0, 2, []⟩,
    ⟨0, 2, []⟩, ⟨0, 2, []⟩], []⟩

/-- The propagator of the coherence scenario, item sizes `[4, 5, 6, 7]`. -/
def bpC5 : BinPacking := BinPacking.new [0, 1, 2] [3, 4, 5, 6] [4, 5, 6, 7]

/-- C5: the coherence rules.  Universally, on a hole-free load domain
the lower-coherence step raises the lower bound of load `j` to
`Σᵢ sᵢ − Σ_{k≠j} Uₖ` (never lowering it) with the other loads'
upper-bound atoms — read when bin `j` is processed — as the recorded
reason, and symmetrically for the upper-coherence step; in particular on
loads `[4..5], [11..13], [3..9]` with four items in `{0,1,2}` and sizes
`[4,5,6,7]`, propagation narrows `L3` to `[4,7]`, leaves `L1` and `L2`
unchanged, and stores `[L1 ≤ 5] ∧ [L2 ≤ 13]` as the reason of
`[L3 ≥ 4]`. -/
theorem bin_packing_coherence_rules :
    (∀ (bp : BinPacking) (total : Int) (σ : Store) (j : Nat),
      (σ.dom (bp.loads.getD j 0)).holes = [] →
      bp.loads.getD j 0 < σ.doms.length →
      coherenceLowerTarget bp total σ j ≤ σ.upper_bound (bp.loads.getD j 0) →
      ∃ σ1, lowerCoherenceStep bp total σ j = .ok σ1 ∧
        σ1.lower_bound (bp.loads.getD j 0) =
          max (σ.lower_bound (bp.loads.getD j 0))
            (coherenceLowerTarget bp total σ j) ∧
        (σ.lower_bound (bp.loads.getD j 0) < coherenceLowerTarget bp total σ j →
          σ1.trail = σ.trail ++
            [(Pred.ge (bp.loads.getD j 0) (coherenceLowerTarget bp total σ j),
              coherenceLowerReason bp σ j)])) ∧
    (∀ (bp : BinPacking) (total : Int) (σ : Store) (j : Nat),
      (σ.dom (bp.loads.getD j 0)).holes = [] →
      bp.loads.getD j 0 < σ.doms.length →
      σ.lower_bound (bp.loads.getD j 0) ≤ coherenceUpperTarget bp total σ j →
      ∃ σ1, upperCoherenceStep bp total σ j = .ok σ1 ∧
        σ1.upper_bound (bp.loads.getD j 0) =
          min (σ.upper_bound (bp.loads.getD j 0))
            (coherenceUpperTarget bp total σ j) ∧
        (coherenceUpperTarget bp total σ j < σ.upper_bound (bp.loads.getD j 0) →
          σ1.trail = σ.trail ++
            [(Pred.le (bp.loads.getD j 0) (coherenceUpperTarget bp total σ j),
              coherenceUpperReason bp σ j)])) ∧
    (bpC5.propagate storeC5).isOk = true ∧
    (bpC5.propagate storeC5).storeD.lower_bound 0 = 4 ∧
    (bpC5.propagate storeC5).storeD.upper_bound 0 = 5 ∧
    (bpC5.propagate storeC5).storeD.lower_bound 1 = 11 ∧
    (bpC5.propagate storeC5).storeD.upper_bound 1 = 13 ∧
    (bpC5.propagate storeC5).storeD.lower_bound 2 = 4 ∧
    (bpC5.propagate storeC5).storeD.upper_bound 2 = 7 ∧
    (bpC5.propagate storeC5).storeD.reasonFor (Pred.ge 2 4) =
      some [Pred.le 0 5, Pred.le 1 13] := by
  refine ⟨?_, ?_, by decide⟩
  · intro bp total σ j hd hx hv
    obtain ⟨σ1, h1, h2, _, h4, _⟩ := setLowerBound_hole_free σ
      (bp.loads.getD j 0) (coherenceLowerTarget bp total σ j)
      (coherenceLowerReason bp σ j) hd hx hv
    exact ⟨σ1, h1, h2, h4⟩
  · intro bp total σ j hd hx hv
    obtain ⟨σ1, h1, h2, _, h4, _⟩ := setUpperBound_hole_free σ
      (bp.loads.getD j 0) (coherenceUpperTarget bp total σ j)
      (coherenceUpperReason bp σ j) hd hx hv
    exact ⟨σ1, h1, h2, h4⟩

/-- Witness for C5's universal part: the lower-coherence step applied to
bin 3 (index 2) of the coherence scenario. -/
theorem bin_packing_coherence_rules_witness :
    ∃ σ1, lowerCoherenceStep bpC5 22 storeC5 2 = .ok σ1 ∧
      σ1.lower_bound (bpC5.loads.getD 2 0) =
        max (storeC5.lower_bound (bpC5.loads.getD 2 0))
          (coherenceLowerTarget bpC5 22 storeC5 2) ∧
      (storeC5.lower_bound (bpC5.loads.getD 2 0) <
          coherenceLowerTarget bpC5 22 storeC5 2 →
        σ1.trail = storeC5.trail ++
          [(Pred.ge (bpC5.loads.getD 2 0) (coherenceLowerTarget bpC5 22 storeC5 2),
            coherenceLowerReason bpC5 storeC5 2)]) :=
  bin_packing_coherence_rules.1 bpC5 22 storeC5 2 (by decide) (by decide) (by decide)

/-- Candidate-update bug input: loads `L1 ∈ [4,4]`, `L2 ∈ [0,10]`
(variables 0, 1); items `A` (variable 2, size 5) and `B` (variable 3,
size 4), both with domain `{0, 1}`. -/
def storeC2 : Store :=
  ⟨[⟨4, 4, []⟩, ⟨0, 10, []⟩, ⟨0, 1, []⟩, ⟨0, 1, []⟩], []⟩

/-- The propagator for the candidate-update bug input. -/
def bpC2 : BinPacking := BinPacking.new [0, 1] [2, 3] [5, 4]

/-- C2 (code bug, bin_packing.rs lines 704-707 and 745-748): the
candidate-set updates filter with `remove_set.contains(idx)`, keeping
exactly the removed (resp. committed) items instead of deleting them.
On this input single-item elimination removes item `A` (size 5) from
bin 0, the kept-upside-down candidate set `{A}` makes single-item
commitment post `A = 0` against `A`'s emptied domain, and the sweep
fails with an empty-domain inconsistency — although under the claimed
(and intended) update the sweep would commit `B` and succeed. -/
theorem bin_packing_candidate_update_bug :
    storeC2.contains 2 0 = true ∧
    storeC2.contains 3 0 = true ∧
    bpC2.propagate storeC2 = .fail .emptyDomain := by
  decide

/-! ## Conflict analysis: the resolution resolver
(resolution_resolver.rs) -/

/-- Assignment information consulted during conflict analysis: the trail
position and decision level of each assigned predicate, the predicate
explicitly stored at each trail position, and the current decision
level.  Modelled from the spec (the `Assignments` type is not among the
analysed sources). -/
structure AssignInfo where
  trailPos : Pred → Nat
  decLevel : Pred → Nat
  trailAt : Nat → Pred
  currentLevel : Nat

/-- Predicate ordering by trail position (the `sort_by_key` key). -/
def byTrailPos (a : AssignInfo) (p q : Pred) : Prop :=
  a.trailPos p ≤ a.trailPos q

instance (a : AssignInfo) : DecidableRel (byTrailPos a) :=
  fun _ _ => Nat.decLe _ _

/-- The tail of `extract_final_nogood` (resolution_resolver.rs, lines
339-356): sort the minimised nogood by trail position ascending, reverse
it, and read the backjump level off the predicate at index 1; a nogood
with at most one predicate backjumps to level 0. -/
def finaliseNogood (a : AssignInfo) (clean_nogood : List Pred) :
    Nat × List Pred :=
  let sorted := (List.insertionSort (byTrailPos a) clean_nogood).reverse
  let backjump_level :=
    if 1 < sorted.length then a.decLevel (sorted.getD 1 (Pred.ge 0 0)) else 0
  (backjump_level, sorted)

/-- C6: every learned nogood leaves `extract_final_nogood` sorted by
trail position in descending order; with more than one predicate the
backjump level is the decision level of the predicate at index 1, and a
unit nogood backjumps to level 0. -/
theorem resolution_final_nogood_order (a : AssignInfo) (nogood : List Pred) :
    (finaliseNogood a nogood).2.Pairwise
      (fun p q => a.trailPos q ≤ a.trailPos p) ∧
    (1 < (finaliseNogood a nogood).2.length →
      (finaliseNogood a nogood).1 =
        a.decLevel ((finaliseNogood a nogood).2.getD 1 (Pred.ge 0 0))) ∧
    ((finaliseNogood a nogood).2.length = 1 → (finaliseNogood a nogood).1 = 0) := by
  refine ⟨?_, ?_, ?_⟩
  · have htot : IsTotal Pred (byTrailPos a) :=
      ⟨fun p q => Nat.le_total (a.trailPos p) (a.trailPos q)⟩
    have htrans : IsTrans Pred (byTrailPos a) :=
      ⟨fun p q r h1 h2 => Nat.le_trans h1 h2⟩
    have hsorted : (List.insertionSort (byTrailPos a) nogood).Sorted (byTrailPos a) :=
      List.sorted_insertionSort _ nogood
    exact List.pairwise_reverse.mpr hsorted
  · intro hlen
    unfold finaliseNogood at hlen ⊢
    simp only at hlen ⊢
    rw [if_pos hlen]
  · intro hlen
    unfold finaliseNogood at hlen ⊢
    simp only at hlen ⊢
    rw [if_neg (by omega)]

/-- Concrete assignment data for the resolver witnesses: predicates over
variable `x` sit at trail position `x` with decision level `x`, the
trail stores `[x ≥ 0]` at position `x`, and the current level is 3. -/
def assignInfoWit : AssignInfo where
  trailPos := fun p => match p with
    | .ge x _ => x
    | .le x _ => x
    | .eq x _ => x
    | .ne x _ => x
  decLevel := fun p => match p with
    | .ge x _ => x
    | .le x _ => x
    | .eq x _ => x
    | .ne x _ => x
  trailAt := fun pos => Pred.ge pos 0
  currentLevel := 3

/-- Witness for C6 on the nogood `{[x1 ≥ 0], [x3 ≥ 0], [x2 ≥ 0]}`: the
final order is by descending trail position and the backjump level is
the decision level of the predicate at index 1. -/
theorem resolution_final_nogood_order_witness :
    (finaliseNogood assignInfoWit [Pred.ge 1 0, Pred.ge 3 0, Pred.ge 2 0]).2.Pairwise
      (fun p q => assignInfoWit.trailPos q ≤ assignInfoWit.trailPos p) ∧
    (finaliseNogood assignInfoWit [Pred.ge 1 0, Pred.ge 3 0, Pred.ge 2 0]).1 =
      assignInfoWit.decLevel
        ((finaliseNogood assignInfoWit [Pred.ge 1 0, Pred.ge 3 0, Pred.ge 2 0]).2.getD 1
          (Pred.ge 0 0)) :=
  ⟨(resolution_final_nogood_order assignInfoWit _).1,
    (resolution_final_nogood_order assignInfoWit _).2.1 (by decide)⟩

/-- State of the resolution resolver during analysis: the key-value heap
over current-decision-level predicates — each entry carries its heap
value and whether the key is present — and the buffer of predicates from
lower decision levels.  Modelled from the spec (the `KeyValueHeap` type
is not among the analysed sources). -/
structure ResolverState where
  heap : List (Pred × Nat × Bool)
  lower : List Pred
deriving DecidableEq, Repr

/-- The heap key used for a current-level predicate: `2·p` when the
predicate is the one explicitly stored at its trail position `p`, and
`2·p + 1` when it is implied by that entry. -/
def heapValue (a : AssignInfo) (p : Pred) : Nat :=
  if a.trailAt (a.trailPos p) = p then 2 * a.trailPos p
  else 2 * a.trailPos p + 1

/-- Function `add_predicate_to_conflict_nogood` (resolution_resolver.rs, lines
191-280): root-level predicates are dropped; a current-decision-level
predicate that is not yet tracked (not present with value 0) is inserted
with key `heapValue`; all other predicates are appended to the
lower-decision-level buffer. -/
def addPredicateToConflictNogood (a : AssignInfo) (st : ResolverState)
    (p : Pred) : ResolverState :=
  let dec_level := a.decLevel p
  if dec_level = 0 then st
  else if dec_level = a.currentLevel then
    match st.heap.find? (fun e => decide (e.1 = p)) with
    | some e =>
      if e.2.2 = false ∧ e.2.1 = 0 then
        { st with heap :=
            List.map (fun e1 => if e1.1 = p then (p, heapValue a p, true) else e1) st.heap }
      else st
    | none => { st with heap := st.heap ++ [(p, heapValue a p, true)] }
  else { st with lower := st.lower ++ [p] }

/-- C7: the three cases of `add_predicate_to_conflict_nogood` — a
root-level predicate is added to neither structure; a fresh predicate of
the current decision level enters the heap keyed `2·p` when it is the
predicate explicitly stored at its trail position `p` and `2·p + 1`
otherwise; and a predicate of any other non-root decision level is
appended to the lower-decision-level buffer. -/
theorem resolver_add_predicate_cases (a : AssignInfo) (st : ResolverState)
    (p : Pred) :
    (a.decLevel p = 0 → addPredicateToConflictNogood a st p = st) ∧
    (a.decLevel p = a.currentLevel → a.decLevel p ≠ 0 →
      st.heap.find? (fun e => decide (e.1 = p)) = none →
      addPredicateToConflictNogood a st p =
        { st with heap := st.heap ++
            [(p, if a.trailAt (a.trailPos p) = p then 2 * a.trailPos p
                 else 2 * a.trailPos p + 1, true)] }) ∧
    (a.decLevel p ≠ 0 → a.decLevel p ≠ a.currentLevel →
      addPredicateToConflictNogood a st p =
        { st with lower := st.lower ++ [p] }) := by
  refine ⟨?_, ?_, ?_⟩
  · intro h0
    unfold addPredicateToConflictNogood
    rw [if_pos h0]
  · intro hcur h0 hfind
    unfold addPredicateToConflictNogood
    rw [if_neg h0, if_pos hcur, hfind]
    rfl
  · intro h0 hcur
    unfold addPredicateToConflictNogood
    rw [if_neg h0, if_neg hcur]

/-- Witness for C7: the three cases at concrete predicates — `[x0 ≥ 0]`
(level 0) is dropped, `[x3 ≥ 7]` (current level 3, implied, fresh) is
keyed `2·3 + 1`, and `[x2 ≥ 0]` (level 2) goes to the buffer. -/
theorem resolver_add_predicate_cases_witness :
    addPredicateToConflictNogood assignInfoWit ⟨[], []⟩ (Pred.ge 0 0) = ⟨[], []⟩ ∧
    addPredicateToConflictNogood assignInfoWit ⟨[], []⟩ (Pred.ge 3 7) =
      ⟨[(Pred.ge 3 7, 2 * 3 + 1, true)], []⟩ ∧
    addPredicateToConflictNogood assignInfoWit ⟨[], []⟩ (Pred.ge 2 0) =
      ⟨[], [Pred.ge 2 0]⟩ := by
  refine ⟨?_, ?_, ?_⟩
  · exact (resolver_add_predicate_cases assignInfoWit ⟨[], []⟩ (Pred.ge 0 0)).1 rfl
  · have h := (resolver_add_predicate_cases assignInfoWit ⟨[], []⟩
      (Pred.ge 3 7)).2.1 rfl (by decide) rfl
    rw [h]
    decide
  · exact (resolver_add_predicate_cases assignInfoWit ⟨[], []⟩
      (Pred.ge 2 0)).2.2 (by decide) (by decide)

/-! ## The reified propagator (reified_propagator.rs) -/

/-- The wrapped propagator, abstracted by its three entry points:
root-level initialisation, inconsistency detection and propagation. -/
structure WrappedPropagator where
  initResult : Except (List Pred) Unit
  detect : Store → Option (List Pred)
  prop : Store → Except Inconsistency Store

/-- Mutable state of the reified propagator: the inconsistency the
wrapped propagator reported at the root, still to be turned into a
propagation of the reification literal. -/
structure ReifiedState where
  root_level_inconsistency : Option (List Pred)
deriving DecidableEq, Repr

/-- Method `ReifiedPropagator::initialise_at_root` (reified_propagator.rs,
lines 78-98): a failing wrapped initialisation is stored, not surfaced —
the reified initialisation itself always succeeds. -/
def reifiedInitialiseAtRoot (w : WrappedPropagator) :
    ReifiedState × Except (List Pred) Unit :=
  match w.initResult with
  | .error c => (⟨some c⟩, .ok ())
  | .ok _ => (⟨none⟩, .ok ())

/-- The reification literal is true when its 0/1 variable is fixed to 1. -/
def Store.is_literal_true (σ : Store) (r : Nat) : Bool :=
  decide (σ.lower_bound r = 1)

/-- Method `ReifiedPropagator::map_propagation_status` (reified_propagator.rs,
lines 148-157): an explicit conflict gets the reification literal's
predicate appended; every other status is returned unchanged. -/
def mapPropagationStatus (r : Nat) (status : Except Inconsistency Store) :
    Except Inconsistency Store :=
  match status with
  | .error (.conflict c) => .error (.conflict (c ++ [Pred.eq r 1]))
  | other => other

/-- Method `ReifiedPropagator::propagate_reification` (reified_propagator.rs,
lines 159-170): while the reification literal is unfixed, a detected
inconsistency of the wrapped propagator assigns it to false. -/
def propagateReification (w : WrappedPropagator) (r : Nat) (σ : Store) :
    Except Inconsistency Store :=
  if σ.is_fixed r = true then .ok σ
  else
    match w.detect σ with
    | some c =>
      match σ.postPredicate (Pred.eq r 0) c with
      | .error _ => .error .emptyDomain
      | .ok σ1 => .ok σ1
    | none => .ok σ

/-- Method `ReifiedPropagator::propagate` (reified_propagator.rs, lines
104-120): first turn a deferred root inconsistency into `r := false`
(clearing it), then run `propagate_reification`, and finally, when the
reification literal is true, run the wrapped propagator and map its
status. -/
def reifiedPropagate (w : WrappedPropagator) (st : ReifiedState) (r : Nat)
    (σ : Store) : ReifiedState × Except Inconsistency Store :=
  let step1 : Except Inconsistency Store :=
    match st.root_level_inconsistency with
    | some c =>
      match σ.postPredicate (Pred.eq r 0) c with
      | .error _ => .error .emptyDomain
      | .ok σ1 => .ok σ1
    | none => .ok σ
  (⟨none⟩,
    match step1 with
    | .error e => .error e
    | .ok σ1 =>
      match propagateReification w r σ1 with
      | .error e => .error e
      | .ok σ2 =>
        if σ2.is_literal_true r = true then mapPropagationStatus r (w.prop σ2)
        else .ok σ2)

/-- C8: when the wrapped propagator's `initialise_at_root` fails with a
conjunction `C`, the reified propagator's initialisation succeeds while
storing `C`, and the next `propagate` on a store whose fresh reification
literal `r` has domain `{0, 1}` assigns `r := false` with reason exactly
`C`, clearing the stored conjunction. -/
theorem reified_defers_root_inconsistency (w : WrappedPropagator)
    (C : List Pred) (r : Nat) (σ : Store)
    (hw : w.initResult = .error C)
    (hdom : σ.dom r = ⟨0, 1, []⟩) (hr : r < σ.doms.length)
    (ht : σ.trail = []) :
    (reifiedInitialiseAtRoot w).2 = .ok () ∧
    (reifiedInitialiseAtRoot w).1.root_level_inconsistency = some C ∧
    ∃ σ1, reifiedPropagate w (reifiedInitialiseAtRoot w).1 r σ = (⟨none⟩, .ok σ1) ∧
      σ1.lower_bound r = 0 ∧ σ1.upper_bound r = 0 ∧
      σ1.reasonFor (Pred.le r 0) = some C := by
  have hinit : reifiedInitialiseAtRoot w = (⟨some C⟩, .ok ()) := by
    unfold reifiedInitialiseAtRoot
    rw [hw]
  have hlb : σ.lower_bound r = 0 := by
    unfold Store.lower_bound
    rw [hdom]
  have hub : σ.upper_bound r = 1 := by
    unfold Store.upper_bound
    rw [hdom]
  obtain ⟨σa, ha1, _, _, _, ha5⟩ :=
    setLowerBound_hole_free σ r 0 C (by rw [hdom]) hr (by omega)
  have hae : σa = σ := ha5 (by omega)
  obtain ⟨σb, hb1, hb2, hb3, hb4, _⟩ :=
    setUpperBound_hole_free σ r 0 C (by rw [hdom]) hr (by omega)
  have hpost : σ.postPredicate (Pred.eq r 0) C = .ok σb := by
    show (match σ.setLowerBound r 0 C with
      | .error e => Except.error e
      | .ok σ1 => σ1.setUpperBound r 0 C) = .ok σb
    rw [ha1]
    show σa.setUpperBound r 0 C = .ok σb
    rw [hae]
    exact hb1
  have hblb : σb.lower_bound r = 0 := by rw [hb3, hlb]
  have hbub : σb.upper_bound r = 0 := by
    rw [hb2, hub]
    decide
  have hfixb : σb.is_fixed r = true := by
    unfold Store.is_fixed
    rw [hblb, hbub]
    decide
  have htrueb : σb.is_literal_true r = false := by
    unfold Store.is_literal_true
    rw [hblb]
    decide
  refine ⟨by rw [hinit], by rw [hinit], σb, ?_, hblb, hbub, ?_⟩
  · rw [hinit]
    unfold reifiedPropagate
    simp only [hpost]
    unfold propagateReification
    rw [hfixb]
    simp [htrueb]
  · unfold Store.reasonFor
    rw [hb4 (by omega), ht]
    simp

/-- Witness for C8 on the spec's reified scenario: the wrapped
propagator reports `C = [a = 1] ∧ [b = 2]` at the root and the
reification literal is variable 0 with domain `{0, 1}`. -/
theorem reified_defers_root_inconsistency_witness :
    ∃ σ1, reifiedPropagate
        ⟨.error [Pred.eq 1 1, Pred.eq 2 2], fun _ => none, fun σ => .ok σ⟩
        (reifiedInitialiseAtRoot
          ⟨.error [Pred.eq 1 1, Pred.eq 2 2], fun _ => none, fun σ => .ok σ⟩).1 0
        ⟨[⟨0, 1, []⟩, ⟨1, 1, []⟩, ⟨2, 2, []⟩], []⟩ = (⟨none⟩, .ok σ1) ∧
      σ1.lower_bound 0 = 0 ∧ σ1.upper_bound 0 = 0 ∧
      σ1.reasonFor (Pred.le 0 0) = some [Pred.eq 1 1, Pred.eq 2 2] :=
  (reified_defers_root_inconsistency
    ⟨.error [Pred.eq 1 1, Pred.eq 2 2], fun _ => none, fun σ => .ok σ⟩
    [Pred.eq 1 1, Pred.eq 2 2] 0
    ⟨[⟨0, 1, []⟩, ⟨1, 1, []⟩, ⟨2, 2, []⟩], []⟩
    rfl rfl (by decide) rfl).2.2

/-- C9: with no deferred root inconsistency and the reification literal
fixed to true, an explicit conflict `C` of the wrapped propagator is
surfaced with the literal's predicate appended, while an empty-domain
inconsistency is surfaced unchanged. -/
theorem reified_conflict_adds_literal (w : WrappedPropagator)
    (st : ReifiedState) (r : Nat) (σ : Store)
    (hroot : st.root_level_inconsistency = none)
    (hdom : σ.dom r = ⟨1, 1, []⟩) :
    (∀ C, w.prop σ = .error (.conflict C) →
      reifiedPropagate w st r σ = (⟨none⟩, .error (.conflict (C ++ [Pred.eq r 1])))) ∧
    (w.prop σ = .error .emptyDomain →
      reifiedPropagate w st r σ = (⟨none⟩, .error .emptyDomain)) := by
  have hfix : σ.is_fixed r = true := by
    unfold Store.is_fixed Store.lower_bound Store.upper_bound
    rw [hdom]
    decide
  have htrue : σ.is_literal_true r = true := by
    unfold Store.is_literal_true Store.lower_bound
    rw [hdom]
    decide
  have hbase : ∀ res, w.prop σ = res →
      reifiedPropagate w st r σ = (⟨none⟩, mapPropagationStatus r res) := by
    intro res hres
    unfold reifiedPropagate
    rw [hroot]
    simp only
    unfold propagateReification
    rw [hfix]
    simp [htrue, hres]
  constructor
  · intro C hC
    rw [hbase _ hC]
    rfl
  · intro hC
    rw [hbase _ hC]
    rfl

/-- Witness for C9: a wrapped propagator that always reports the
conflict `[x1 ≥ 1]`, reified by the true literal at variable 0. -/
theorem reified_conflict_adds_literal_witness :
    reifiedPropagate ⟨.ok (), fun _ => none, fun _ => .error (.conflict [Pred.ge 1 1])⟩
        ⟨none⟩ 0 ⟨[⟨1, 1, []⟩, ⟨1, 1, []⟩], []⟩ =
      (⟨none⟩, .error (.conflict ([Pred.ge 1 1] ++ [Pred.eq 0 1]))) :=
  (reified_conflict_adds_literal
    ⟨.ok (), fun _ => none, fun _ => .error (.conflict [Pred.ge 1 1])⟩
    ⟨none⟩ 0 ⟨[⟨1, 1, []⟩, ⟨1, 1, []⟩], []⟩ rfl rfl).1 [Pred.ge 1 1] rfl

end PumpkinBP

